import Mathlib

/-!
Verification of the closure-crawling engine of `survey/src/nix.rs`
(nixos-vulnerability-roundup).

The Rust source is shallowly embedded as follows.

* `DrvPath` (a validated store path) is modelled as a plain `String`;
  the validation performed by `DrvPath::new` is modelled separately by
  `DrvPath.new : String → Option String` (`none` models the `assert!`
  failures).
* `Seen` (a `HashSet` owned by the expansion thread) is modelled as a
  structure holding the list of inserted elements; `Seen.take_max`
  mirrors the pop/skip/insert loop of `Seen::take_max`.
* The concurrent crawl (`expand_runner`, the `instantiate_runner`
  worker pool, the crossbeam channels, the `SegQueue` frontier and the
  `AtomicI16` counter `INFLIGHT`) is modelled as a small-step transition
  system `Step` over states `Sys`; `Reach` is its reflexive-transitive
  closure, i.e. the set of states reachable under an arbitrary thread
  interleaving.  The 16-bit counter is kept as its raw bit pattern
  (`bits : Nat`, always reduced mod 2^16) and read through `toI16`,
  which reproduces the wrapping signed semantics of `AtomicI16`.
* The external commands `nix show-derivation` and `nix-instantiate` are
  oracles (`g`, `r`) supplied as parameters of the transition system;
  `show_derivation` keeps the early return on an empty batch that the
  source performs before spawning any process.
-/

/-- A derivation path (`DrvPath` in the source wraps a `PathBuf`). -/
abbrev DrvPath := String

/-- A nix attribute name (`type Attr = String` in the source). -/
abbrev Attr := String

/-- Scanner for `has_version`: looks for a `'-'` immediately followed by an
ASCII digit among consecutive character pairs of the list. -/
def hasVerScan : List Char → Bool
  | [] => false
  | [_] => false
  | c :: d :: rest => (decide (c = '-') && d.isDigit) || hasVerScan (d :: rest)

/-- `DrvPath::has_version`: the regex `^(.+?)-([0-9]).*$` matches the textual
form of the path, i.e. some `'-'` at an index ≥ 1 is immediately followed by
a digit.  The leading character is stripped before scanning because the
regex requires at least one character before the `'-'`. -/
def has_version (s : String) : Bool :=
  hasVerScan s.toList.tail

/-- Components of a path string in the sense of Rust `std::path::Path`:
the segments between `/` separators, with empty segments (repeated
slashes) and `.` segments normalized away, as `Path::components` does;
`..` segments are kept. -/
def pathComponents (s : String) : List String :=
  (s.splitOn "/").filter (fun c => c ≠ "" ∧ c ≠ ".")

/-- Rust `Path::starts_with("/nix/store/")`: the path is absolute and its
leading components are `nix`, `store`. -/
def startsWithNixStore (s : String) : Bool :=
  s.startsWith "/" && List.isPrefixOf ["nix", "store"] (pathComponents s)

/-- Rust extension rule for one file name: the part after the last `.`,
except that a name with no `.`, or a name whose only `.` is leading
(a hidden file such as `.drv`), has no extension. -/
def fileExtension (name : String) : Option String :=
  match name.splitOn "." with
  | [] => none
  | [_] => none
  | "" :: [_] => none
  | parts => parts.getLast?

/-- Rust `Path::file_name`: the last normalized component, or none when
there is no component left (root or `.`-only paths) or the path
terminates in `..`. -/
def pathFileName (s : String) : Option String :=
  match (pathComponents s).getLast? with
  | none => none
  | some name => if name = ".." then none else some name

/-- Rust `Path::extension`: extension of the file name. -/
def pathExtension (s : String) : Option String :=
  match pathFileName s with
  | none => none
  | some name => fileExtension name

/-- `DrvPath::new`: asserts `p.starts_with("/nix/store/")`, then
`p.extension().unwrap() == "drv"`.  Each failing assertion (including the
`unwrap` on a missing extension) panics; panics are modelled by `none`. -/
def DrvPath.new (s : String) : Option DrvPath :=
  if startsWithNixStore s then
    match pathExtension s with
    | none => none
    | some e => if e = "drv" then some s else none
  else none

/-- The `Seen` visited set (`struct Seen(HashSet<T>)` in the source). -/
structure Seen (α : Type) where
  elems : List α
deriving DecidableEq

/-- `HashSet::contains` through `Seen`'s `Deref`. -/
def Seen.contains [DecidableEq α] (seen : Seen α) (x : α) : Bool :=
  decide (x ∈ seen.elems)

/-- `Seen::add`: insert the element unless it is already present. -/
def Seen.add [DecidableEq α] (seen : Seen α) (x : α) : Seen α :=
  if seen.contains x then seen else ⟨x :: seen.elems⟩

/-- `Seen::take_max`: pop from the queue until `n` unseen elements were
taken or the queue is exhausted; skip elements already seen; insert each
taken element.  Returns (taken elements, new seen set, rest of queue). -/
def Seen.take_max [DecidableEq α] (seen : Seen α) (queue : List α) (n : Nat) :
    List α × Seen α × List α :=
  match queue with
  | [] => ([], seen, [])
  | x :: rest =>
    if n = 0 then ([], seen, x :: rest)
    else if seen.contains x then seen.take_max rest n
    else
      let r := (seen.add x).take_max rest (n - 1)
      (x :: r.1, r.2.1, r.2.2)

/-- `show_derivation`: on an empty batch returns `Ok((vec![], vec![]))`
before any external command is built; otherwise the result is whatever the
external `nix show-derivation` invocation (the oracle `g`) produces:
`Ok` carries (input derivation paths, constituent attribute names), and
`Except.error` models the `?` failure paths (capture / JSON parse). -/
def show_derivation (g : List DrvPath → Except Unit (List DrvPath × List Attr))
    (drvs : List DrvPath) : Except Unit (List DrvPath × List Attr) :=
  if drvs.isEmpty then Except.ok ([], []) else g drvs

/-- Whether `show_derivation` reaches the `Exec::cmd("nix")` line, i.e.
invokes an external process: exactly when the batch is non-empty. -/
def show_derivation_invoked (drvs : List DrvPath) : Bool :=
  !drvs.isEmpty

/-- The spawn range of the resolution worker pool in `all_derivations`:
`(1..num_cpus::get())`, one `instantiate_runner` thread per element. -/
def inst_hdl_ids (ncpus : Nat) : List Nat :=
  List.range' 1 (ncpus - 1)

/-- `output_runner`: flatten the received batches, keep the paths whose
textual form `has_version`, one output line per kept path. -/
def output_runner (batches : List (List DrvPath)) : List String :=
  (batches.flatten).filter (fun d => has_version d)

/-- Signed reading of a 16-bit pattern, as `AtomicI16::load` returns it. -/
def toI16 (b : Nat) : Int :=
  if b % 65536 < 32768 then ((b % 65536 : Nat) : Int)
  else ((b % 65536 : Nat) : Int) - 65536

/-- Program counter of the single expansion thread, one constructor per
atomic point of the `expand_runner` loop body. -/
inductive ExpandPC
  /-- About to execute `let len = queue.len()`. -/
  | top
  /-- `len` was read; about to branch on `len > 0`. -/
  | branch (len : Nat)
  /-- `take_max` returned `drvs`; about to call `show_derivation`. -/
  | query (drvs : List DrvPath)
  /-- `show_derivation` succeeded; about to `scanner.send(drvs)`. -/
  | deliver (drvs inputs : List DrvPath) (cons : List Attr)
  /-- About to push the discovered `inputs` onto the frontier. -/
  | pushInputs (inputs : List DrvPath) (cons : List Attr)
  /-- Dispatch loop over the remaining constituents. -/
  | dispatch (cons : List Attr)
  /-- `INFLIGHT.fetch_add(1)` done for `c`; about to `instantiate.send(c)`. -/
  | send (c : Attr) (cons : List Attr)
  /-- `INFLIGHT.load()` returned `v`; about to branch on `v <= 0`. -/
  | check (v : Int)
  /-- `break` was taken: normal exit of the loop. -/
  | exitedOk
  /-- `show_derivation` failed: `?` propagated the error out of the loop. -/
  | exitedErr
deriving DecidableEq

/-- 1 when the expansion thread has incremented `INFLIGHT` for a
constituent but not yet submitted it to the channel. -/
def pendSend : ExpandPC → Nat
  | .send _ _ => 1
  | _ => 0

/-- The batch held by the expansion thread after `take_max` and before
`scanner.send`. -/
def pendingBatch : ExpandPC → List (List DrvPath)
  | .query drvs => [drvs]
  | .deliver drvs _ _ => [drvs]
  | _ => []

/-- Global state of the crawl: the shared structures (frontier `queue`,
channel buffers `chan` and `sink`, counter bits), the expansion thread's
local state (`seen`, `pc`), the resolution workers' state (`proc` =
received targets being resolved, `pendDec` = finished attempts whose
`fetch_sub` is still pending, `faillog` = warn! output), and ghost
history counters (`batches` = every batch `take_max` produced, `sleeps`,
and the event counts `nDisp`/`nSent`/`nRecv`/`nDone`/`nDec`). -/
structure Sys where
  queue : List DrvPath
  seen : Seen DrvPath
  chan : List Attr
  proc : List Attr
  pendDec : Nat
  bits : Nat
  pc : ExpandPC
  sink : List (List DrvPath)
  batches : List (List DrvPath)
  faillog : List Attr
  sleeps : Nat
  nDisp : Nat
  nSent : Nat
  nRecv : Nat
  nDone : Nat
  nDec : Nat
deriving DecidableEq

/-- Initial state of `all_derivations` after the root derivation was
pushed: singleton frontier, empty everything else, `INFLIGHT = 0`. -/
def init (root : DrvPath) : Sys :=
  { queue := [root], seen := ⟨[]⟩, chan := [], proc := [], pendDec := 0,
    bits := 0, pc := .top, sink := [], batches := [], faillog := [],
    sleeps := 0, nDisp := 0, nSent := 0, nRecv := 0, nDone := 0, nDec := 0 }

/-- One atomic step of any thread of the crawl, for a fixed
`show_derivation` oracle `g` and `nix-instantiate` oracle `r`.
Constructors `readLen` … `sleep` are the expansion thread
(`expand_runner`); `recv`, `finishOk`, `finishFail`, `dec` are the
resolution workers (`instantiate_runner`), any number of which may
interleave. -/
inductive Step (g : List DrvPath → Except Unit (List DrvPath × List Attr))
    (r : Attr → Option DrvPath) : Sys → Sys → Prop
  /-- `let len = queue.len()`. -/
  | readLen (s : Sys) (h : s.pc = .top) :
      Step g r s { s with pc := .branch s.queue.length }
  /-- `len > 0`: `seen.take_max(queue, 30)` (pops, dedups, inserts). -/
  | takeBatch (s : Sys) (len : Nat) (h : s.pc = .branch len) (hlen : 0 < len) :
      Step g r s { s with
        pc := .query (s.seen.take_max s.queue 30).1,
        seen := (s.seen.take_max s.queue 30).2.1,
        queue := (s.seen.take_max s.queue 30).2.2,
        batches := s.batches ++ [(s.seen.take_max s.queue 30).1] }
  /-- `show_derivation(&drvs)` returned `Ok`. -/
  | queryOk (s : Sys) (drvs inputs : List DrvPath) (cons : List Attr)
      (h : s.pc = .query drvs)
      (hg : show_derivation g drvs = .ok (inputs, cons)) :
      Step g r s { s with pc := .deliver drvs inputs cons }
  /-- `show_derivation(&drvs)` failed: `?` exits the loop with the error. -/
  | queryErr (s : Sys) (drvs : List DrvPath) (e : Unit)
      (h : s.pc = .query drvs)
      (hg : show_derivation g drvs = .error e) :
      Step g r s { s with pc := .exitedErr }
  /-- `scanner.send(drvs)`: the batch goes to the sink channel. -/
  | deliver (s : Sys) (drvs inputs : List DrvPath) (cons : List Attr)
      (h : s.pc = .deliver drvs inputs cons) :
      Step g r s { s with pc := .pushInputs inputs cons,
                          sink := s.sink ++ [drvs] }
  /-- `for i in inputs { queue.push(i) }`. -/
  | pushInputs (s : Sys) (inputs : List DrvPath) (cons : List Attr)
      (h : s.pc = .pushInputs inputs cons) :
      Step g r s { s with pc := .dispatch cons, queue := s.queue ++ inputs }
  /-- `INFLIGHT.fetch_add(1, SeqCst)` for the next constituent `c`. -/
  | inc (s : Sys) (c : Attr) (cons : List Attr)
      (h : s.pc = .dispatch (c :: cons)) :
      Step g r s { s with pc := .send c cons,
                          bits := (s.bits + 1) % 65536,
                          nDisp := s.nDisp + 1 }
  /-- `instantiate.send(c)`. -/
  | send (s : Sys) (c : Attr) (cons : List Attr) (h : s.pc = .send c cons) :
      Step g r s { s with pc := .dispatch cons,
                          chan := s.chan ++ [c],
                          nSent := s.nSent + 1 }
  /-- Constituent loop finished: back to the top of the loop. -/
  | dispatchDone (s : Sys) (h : s.pc = .dispatch []) :
      Step g r s { s with pc := .top }
  /-- `len == 0`: `let inflight = INFLIGHT.load(SeqCst)`. -/
  | readInflight (s : Sys) (h : s.pc = .branch 0) :
      Step g r s { s with pc := .check (toI16 s.bits) }
  /-- `inflight <= 0`: `break`. -/
  | exitOk (s : Sys) (v : Int) (h : s.pc = .check v) (hv : v ≤ 0) :
      Step g r s { s with pc := .exitedOk }
  /-- `inflight > 0`: debug-log and `thread::sleep(2s)`, then loop. -/
  | sleep (s : Sys) (v : Int) (h : s.pc = .check v) (hv : 0 < v) :
      Step g r s { s with pc := .top, sleeps := s.sleeps + 1 }
  /-- A worker receives the next attribute from the channel. -/
  | recv (s : Sys) (c : Attr) (rest : List Attr) (h : s.chan = c :: rest) :
      Step g r s { s with chan := rest, proc := s.proc ++ [c],
                          nRecv := s.nRecv + 1 }
  /-- `nix_instantiate` succeeded for `c`: `out.push(drv)`; the matching
  `fetch_sub` has not run yet. -/
  | finishOk (s : Sys) (c : Attr) (d : DrvPath) (p1 p2 : List Attr)
      (h : s.proc = p1 ++ c :: p2) (hr : r c = some d) :
      Step g r s { s with proc := p1 ++ p2, queue := s.queue ++ [d],
                          pendDec := s.pendDec + 1, nDone := s.nDone + 1 }
  /-- `nix_instantiate` failed for `c`: `warn!` logs the attribute and the
  target is dropped; the matching `fetch_sub` has not run yet. -/
  | finishFail (s : Sys) (c : Attr) (p1 p2 : List Attr)
      (h : s.proc = p1 ++ c :: p2) (hr : r c = none) :
      Step g r s { s with proc := p1 ++ p2, faillog := s.faillog ++ [c],
                          pendDec := s.pendDec + 1, nDone := s.nDone + 1 }
  /-- `INFLIGHT.fetch_sub(1, SeqCst)` for one finished attempt. -/
  | dec (s : Sys) (h : 0 < s.pendDec) :
      Step g r s { s with pendDec := s.pendDec - 1,
                          bits := (s.bits + 65535) % 65536,
                          nDec := s.nDec + 1 }

/-- Reachability under arbitrary interleaving. -/
def Reach (g : List DrvPath → Except Unit (List DrvPath × List Attr))
    (r : Attr → Option DrvPath) : Sys → Sys → Prop :=
  Relation.ReflTransGen (Step g r)

/-- Resolution targets dispatched (counter incremented) but whose attempt
has not yet been fully accounted (decrement still to come): targets
buffered in the channel, targets being resolved, finished attempts whose
`fetch_sub` is pending, plus a target incremented but not yet sent. -/
def outstanding (s : Sys) : Nat :=
  s.chan.length + s.proc.length + s.pendDec + pendSend s.pc

/-- The signed value the expansion thread sees when loading `INFLIGHT`. -/
def inflightVal (s : Sys) : Int :=
  toI16 s.bits

/-- The crawl has ended: the expansion thread exited (normally or with a
batch-query error) and the worker pool has drained the closed channel and
finished every received attempt (how `crossbeam::scope` joins resolve). -/
def crawlEnded (s : Sys) : Prop :=
  (s.pc = .exitedOk ∨ s.pc = .exitedErr) ∧ s.chan = [] ∧ s.proc = [] ∧
    s.pendDec = 0

/-- Oracle: every batch has no inputs and no constituents. -/
def g0 : List DrvPath → Except Unit (List DrvPath × List Attr) :=
  fun _ => Except.ok ([], [])

/-- Oracle: every batch reports the root itself as its only input. -/
def g1 : List DrvPath → Except Unit (List DrvPath × List Attr) :=
  fun _ => Except.ok (["r"], [])

/-- Oracle: every batch reports 32768 constituents and no inputs. -/
def gBig : List DrvPath → Except Unit (List DrvPath × List Attr) :=
  fun _ => Except.ok ([], List.replicate 32768 "c")

/-- Oracle: `nix-instantiate` fails on every attribute. -/
def r0 : Attr → Option DrvPath :=
  fun _ => none

/-- A root derivation path used in concrete runs. -/
def root0 : DrvPath := "r"

/-- A root path whose textual form has a version marker. -/
def rootV : DrvPath := "x-1"

/-- The inductive invariant of the crawl.  The first five clauses are the
`INFLIGHT` accounting: every increment precedes the matching channel send,
every receive precedes the matching attempt completion, every completion
precedes the matching decrement, and the stored bit pattern is the
(wrapped) difference of increments and decrements.  The remaining clauses
relate the batches produced by `take_max` to the visited set and to the
sink channel. -/
structure CrawlInv (s : Sys) : Prop where
  disp_eq : s.nDisp = s.nSent + pendSend s.pc
  sent_eq : s.nSent = s.chan.length + s.nRecv
  recv_eq : s.nRecv = s.proc.length + s.nDone
  done_eq : s.nDone = s.pendDec + s.nDec
  bits_eq : s.bits = (s.nDisp - s.nDec) % 65536
  flat_nodup : s.batches.flatten.Nodup
  flat_seen : ∀ x ∈ s.batches.flatten, s.seen.contains x = true
  batch_sink : s.batches = s.sink ++ pendingBatch s.pc ∨ s.pc = .exitedErr
  sink_init : ∃ t, s.batches = s.sink ++ t
  batch_len : ∀ b ∈ s.batches, b.length ≤ 30

theorem Seen.contains_iff [DecidableEq α] (seen : Seen α) (x : α) :
    seen.contains x = true ↔ x ∈ seen.elems := by
  simp [Seen.contains]

theorem Seen.contains_add [DecidableEq α] (seen : Seen α) (y x : α) :
    (seen.add y).contains x = true ↔ x = y ∨ seen.contains x = true := by
  unfold Seen.add
  by_cases hy : seen.contains y = true
  · simp only [hy, if_true]
    constructor
    · tauto
    · rintro (rfl | hx)
      · exact hy
      · exact hx
  · simp only [hy, if_false, Seen.contains_iff, List.mem_cons]
    simp [Seen.contains_iff]

theorem Seen.take_max_nil [DecidableEq α] (seen : Seen α) (n : Nat) :
    seen.take_max [] n = ([], seen, []) := rfl

theorem Seen.take_max_cons_zero [DecidableEq α] (seen : Seen α) (x : α)
    (rest : List α) : seen.take_max (x :: rest) 0 = ([], seen, x :: rest) := by
  simp [Seen.take_max]

theorem Seen.take_max_cons_seen [DecidableEq α] {seen : Seen α} {x : α}
    (rest : List α) {n : Nat} (h : seen.contains x = true) (hn : n ≠ 0) :
    seen.take_max (x :: rest) n = seen.take_max rest n := by
  simp [Seen.take_max, hn, h]

theorem Seen.take_max_cons_new [DecidableEq α] {seen : Seen α} {x : α}
    (rest : List α) {n : Nat} (h : seen.contains x = false) (hn : n ≠ 0) :
    seen.take_max (x :: rest) n =
      (x :: ((seen.add x).take_max rest (n - 1)).1,
       ((seen.add x).take_max rest (n - 1)).2.1,
       ((seen.add x).take_max rest (n - 1)).2.2) := by
  simp [Seen.take_max, hn, h]

theorem Seen.take_max_not_seen [DecidableEq α] :
    ∀ (queue : List α) (seen : Seen α) (n : Nat) (x : α),
      x ∈ (seen.take_max queue n).1 → seen.contains x = false := by
  intro queue
  induction queue with
  | nil => intro seen n x hx; simp [Seen.take_max_nil] at hx
  | cons y rest ih =>
    intro seen n x hx
    by_cases hn : n = 0
    · subst hn; simp [Seen.take_max_cons_zero] at hx
    · by_cases hy : seen.contains y = true
      · rw [Seen.take_max_cons_seen rest hy hn] at hx
        exact ih seen n x hx
      · have hy' : seen.contains y = false := by
          simpa using hy
        rw [Seen.take_max_cons_new rest hy' hn] at hx
        simp only [List.mem_cons] at hx
        rcases hx with rfl | hx
        · exact hy'
        · have h2 := ih (seen.add y) (n - 1) x hx
          rcases Bool.eq_false_or_eq_true (seen.contains x) with hc | hc
          · exfalso
            have h3 := (Seen.contains_add seen y x).2 (Or.inr hc)
            rw [h2] at h3
            exact Bool.false_ne_true h3
          · exact hc

theorem Seen.contains_mono_add [DecidableEq α] (seen : Seen α) (y x : α)
    (h : seen.contains x = true) : (seen.add y).contains x = true :=
  (Seen.contains_add seen y x).2 (Or.inr h)

theorem Seen.take_max_contains_mono [DecidableEq α] :
    ∀ (queue : List α) (seen : Seen α) (n : Nat) (x : α),
      seen.contains x = true → ((seen.take_max queue n).2.1).contains x = true := by
  intro queue
  induction queue with
  | nil => intro seen n x hx; simpa [Seen.take_max_nil] using hx
  | cons y rest ih =>
    intro seen n x hx
    by_cases hn : n = 0
    · subst hn; simpa [Seen.take_max_cons_zero] using hx
    · by_cases hy : seen.contains y = true
      · rw [Seen.take_max_cons_seen rest hy hn]
        exact ih seen n x hx
      · have hy' : seen.contains y = false := by simpa using hy
        rw [Seen.take_max_cons_new rest hy' hn]
        exact ih (seen.add y) (n - 1) x (Seen.contains_mono_add seen y x hx)

theorem Seen.take_max_mem_new_seen [DecidableEq α] :
    ∀ (queue : List α) (seen : Seen α) (n : Nat) (x : α),
      x ∈ (seen.take_max queue n).1 →
      ((seen.take_max queue n).2.1).contains x = true := by
  intro queue
  induction queue with
  | nil => intro seen n x hx; simp [Seen.take_max_nil] at hx
  | cons y rest ih =>
    intro seen n x hx
    by_cases hn : n = 0
    · subst hn; simp [Seen.take_max_cons_zero] at hx
    · by_cases hy : seen.contains y = true
      · rw [Seen.take_max_cons_seen rest hy hn] at hx ⊢
        exact ih seen n x hx
      · have hy' : seen.contains y = false := by simpa using hy
        rw [Seen.take_max_cons_new rest hy' hn] at hx ⊢
        simp only [List.mem_cons] at hx
        rcases hx with rfl | hx
        · exact Seen.take_max_contains_mono rest (seen.add x) (n - 1) x
            ((Seen.contains_add seen x x).2 (Or.inl rfl))
        · exact ih (seen.add y) (n - 1) x hx

theorem Seen.take_max_nodup [DecidableEq α] :
    ∀ (queue : List α) (seen : Seen α) (n : Nat),
      ((seen.take_max queue n).1).Nodup := by
  intro queue
  induction queue with
  | nil => intro seen n; simp [Seen.take_max_nil]
  | cons y rest ih =>
    intro seen n
    by_cases hn : n = 0
    · subst hn; simp [Seen.take_max_cons_zero]
    · by_cases hy : seen.contains y = true
      · rw [Seen.take_max_cons_seen rest hy hn]
        exact ih seen n
      · have hy' : seen.contains y = false := by simpa using hy
        rw [Seen.take_max_cons_new rest hy' hn]
        refine List.nodup_cons.2 ⟨?_, ih (seen.add y) (n - 1)⟩
        intro hmem
        have h2 := Seen.take_max_not_seen rest (seen.add y) (n - 1) y hmem
        have h3 := (Seen.contains_add seen y y).2 (Or.inl rfl)
        rw [h2] at h3
        exact Bool.false_ne_true h3

theorem Seen.take_max_length_le [DecidableEq α] :
    ∀ (queue : List α) (seen : Seen α) (n : Nat),
      ((seen.take_max queue n).1).length ≤ n := by
  intro queue
  induction queue with
  | nil => intro seen n; simp [Seen.take_max_nil]
  | cons y rest ih =>
    intro seen n
    by_cases hn : n = 0
    · subst hn; simp [Seen.take_max_cons_zero]
    · by_cases hy : seen.contains y = true
      · rw [Seen.take_max_cons_seen rest hy hn]
        exact ih seen n
      · have hy' : seen.contains y = false := by simpa using hy
        rw [Seen.take_max_cons_new rest hy' hn]
        have := ih (seen.add y) (n - 1)
        simp only [List.length_cons]
        omega

theorem Seen.take_max_empty_same_seen [DecidableEq α] :
    ∀ (queue : List α) (seen : Seen α) (n : Nat),
      (seen.take_max queue n).1 = [] → (seen.take_max queue n).2.1 = seen := by
  intro queue
  induction queue with
  | nil => intro seen n _; simp [Seen.take_max_nil]
  | cons y rest ih =>
    intro seen n hres
    by_cases hn : n = 0
    · subst hn; simp [Seen.take_max_cons_zero]
    · by_cases hy : seen.contains y = true
      · rw [Seen.take_max_cons_seen rest hy hn] at hres ⊢
        exact ih seen n hres
      · have hy' : seen.contains y = false := by simpa using hy
        rw [Seen.take_max_cons_new rest hy' hn] at hres
        simp at hres

theorem Seen.take_max_empty_rest [DecidableEq α] :
    ∀ (queue : List α) (seen : Seen α) (n : Nat), n ≠ 0 →
      (seen.take_max queue n).1 = [] → (seen.take_max queue n).2.2 = [] := by
  intro queue
  induction queue with
  | nil => intro seen n _ _; simp [Seen.take_max_nil]
  | cons y rest ih =>
    intro seen n hn hres
    by_cases hy : seen.contains y = true
    · rw [Seen.take_max_cons_seen rest hy hn] at hres ⊢
      exact ih seen n hn hres
    · have hy' : seen.contains y = false := by simpa using hy
      rw [Seen.take_max_cons_new rest hy' hn] at hres
      simp at hres

theorem crawlInv_init (root : DrvPath) : CrawlInv (init root) := by
  constructor <;> simp [init, pendSend, pendingBatch]

theorem CrawlInv.nDisp_split {s : Sys} (hi : CrawlInv s) :
    s.nDisp = s.chan.length + s.proc.length + s.pendDec + s.nDec +
      pendSend s.pc := by
  obtain ⟨e1, e2, e3, e4, _, _, _, _, _, _⟩ := hi
  omega

theorem crawlInv_step {g : List DrvPath → Except Unit (List DrvPath × List Attr)}
    {r : Attr → Option DrvPath} {s s' : Sys}
    (hst : Step g r s s') (hi : CrawlInv s) : CrawlInv s' := by
  have hsplit := hi.nDisp_split
  obtain ⟨e1, e2, e3, e4, e5, e6, e7, e8, e8b, e9⟩ := hi
  cases hst with
  | readLen h =>
    rw [h] at e1 e8
    exact ⟨by simpa [pendSend] using e1, e2, e3, e4, e5, e6, e7,
      by simp [pendingBatch] at e8 ⊢; tauto, e8b, e9⟩
  | takeBatch len h hlen =>
    rw [h] at e1 e8
    have hbs : s.batches = s.sink := by
      rcases e8 with e8 | e8
      · simpa [pendingBatch] using e8
      · exact absurd e8 (by simp)
    refine ⟨by simpa [pendSend] using e1, e2, e3, e4, e5, ?_, ?_, ?_, ?_, ?_⟩
    · show (s.batches ++ [(s.seen.take_max s.queue 30).1]).flatten.Nodup
      simp only [List.flatten_append, List.flatten_cons, List.flatten_nil,
        List.append_nil]
      refine List.nodup_append.2 ⟨e6, Seen.take_max_nodup _ _ _, ?_⟩
      intro a ha hb
      have h1 := e7 a ha
      have h2 := Seen.take_max_not_seen s.queue s.seen 30 a hb
      rw [h1] at h2
      exact Bool.noConfusion h2
    · intro x hx
      simp only [List.flatten_append, List.flatten_cons, List.flatten_nil,
        List.append_nil, List.mem_append] at hx
      show ((s.seen.take_max s.queue 30).2.1).contains x = true
      rcases hx with hx | hx
      · exact Seen.take_max_contains_mono s.queue s.seen 30 x (e7 x hx)
      · exact Seen.take_max_mem_new_seen s.queue s.seen 30 x hx
    · left
      show s.batches ++ [(s.seen.take_max s.queue 30).1] =
        s.sink ++ pendingBatch (.query (s.seen.take_max s.queue 30).1)
      simp only [pendingBatch, hbs]
    · exact ⟨[(s.seen.take_max s.queue 30).1], by rw [hbs]⟩
    · intro b hb
      rcases List.mem_append.1 hb with hb | hb
      · exact e9 b hb
      · simp only [List.mem_singleton] at hb
        subst hb
        exact Seen.take_max_length_le s.queue s.seen 30
  | queryOk drvs inputs cons h hg =>
    rw [h] at e1 e8
    refine ⟨by simpa [pendSend] using e1, e2, e3, e4, e5, e6, e7, ?_, e8b, e9⟩
    rcases e8 with e8 | e8
    · left
      show s.batches = s.sink ++ pendingBatch (.deliver drvs inputs cons)
      simpa [pendingBatch] using e8
    · exact absurd e8 (by simp)
  | queryErr drvs e h hg =>
    rw [h] at e1
    exact ⟨by simpa [pendSend] using e1, e2, e3, e4, e5, e6, e7,
      Or.inr rfl, e8b, e9⟩
  | deliver drvs inputs cons h =>
    rw [h] at e1 e8
    have hbs : s.batches = s.sink ++ [drvs] := by
      rcases e8 with e8 | e8
      · simpa [pendingBatch] using e8
      · exact absurd e8 (by simp)
    refine ⟨by simpa [pendSend] using e1, e2, e3, e4, e5, e6, e7, ?_, ?_, e9⟩
    · left
      show s.batches = (s.sink ++ [drvs]) ++ pendingBatch (.pushInputs inputs cons)
      simp [pendingBatch, hbs]
    · exact ⟨[], by simp [hbs]⟩
  | pushInputs inputs cons h =>
    rw [h] at e1 e8
    refine ⟨by simpa [pendSend] using e1, e2, e3, e4, e5, e6, e7, ?_, e8b, e9⟩
    rcases e8 with e8 | e8
    · left
      show s.batches = s.sink ++ pendingBatch (.dispatch cons)
      simpa [pendingBatch] using e8
    · exact absurd e8 (by simp)
  | inc c cons h =>
    rw [h] at e1 e8 hsplit
    simp only [pendSend] at e1 hsplit
    refine ⟨?_, e2, e3, e4, ?_, e6, e7, ?_, e8b, e9⟩
    · show s.nDisp + 1 = s.nSent + pendSend (.send c cons)
      simp [pendSend]; omega
    · show (s.bits + 1) % 65536 = (s.nDisp + 1 - s.nDec) % 65536
      rw [e5, Nat.mod_add_mod]
      congr 1
      omega
    · rcases e8 with e8 | e8
      · left
        show s.batches = s.sink ++ pendingBatch (.send c cons)
        simpa [pendingBatch] using e8
      · exact absurd e8 (by simp)
  | send c cons h =>
    rw [h] at e1 e8
    simp only [pendSend] at e1
    refine ⟨?_, ?_, e3, e4, e5, e6, e7, ?_, e8b, e9⟩
    · show s.nDisp = s.nSent + 1 + pendSend (.dispatch cons)
      simp [pendSend]; omega
    · show s.nSent + 1 = (s.chan ++ [c]).length + s.nRecv
      simp; omega
    · rcases e8 with e8 | e8
      · left
        show s.batches = s.sink ++ pendingBatch (.dispatch cons)
        simpa [pendingBatch] using e8
      · exact absurd e8 (by simp)
  | dispatchDone h =>
    rw [h] at e1 e8
    refine ⟨by simpa [pendSend] using e1, e2, e3, e4, e5, e6, e7, ?_, e8b, e9⟩
    rcases e8 with e8 | e8
    · left
      show s.batches = s.sink ++ pendingBatch .top
      simpa [pendingBatch] using e8
    · exact absurd e8 (by simp)
  | readInflight h =>
    rw [h] at e1 e8
    refine ⟨by simpa [pendSend] using e1, e2, e3, e4, e5, e6, e7, ?_, e8b, e9⟩
    rcases e8 with e8 | e8
    · left
      show s.batches = s.sink ++ pendingBatch (.check (toI16 s.bits))
      simpa [pendingBatch] using e8
    · exact absurd e8 (by simp)
  | exitOk v h hv =>
    rw [h] at e1 e8
    refine ⟨by simpa [pendSend] using e1, e2, e3, e4, e5, e6, e7, ?_, e8b, e9⟩
    rcases e8 with e8 | e8
    · left
      show s.batches = s.sink ++ pendingBatch .exitedOk
      simpa [pendingBatch] using e8
    · exact absurd e8 (by simp)
  | sleep v h hv =>
    rw [h] at e1 e8
    refine ⟨by simpa [pendSend] using e1, e2, e3, e4, e5, e6, e7, ?_, e8b, e9⟩
    rcases e8 with e8 | e8
    · left
      show s.batches = s.sink ++ pendingBatch .top
      simpa [pendingBatch] using e8
    · exact absurd e8 (by simp)
  | recv c rest h =>
    rw [h] at e2
    refine ⟨e1, ?_, ?_, e4, e5, e6, e7, e8, e8b, e9⟩
    · show s.nSent = rest.length + (s.nRecv + 1)
      simp at e2; omega
    · show s.nRecv + 1 = (s.proc ++ [c]).length + s.nDone
      simp; omega
  | finishOk c d p1 p2 h hr =>
    rw [h] at e3
    refine ⟨e1, e2, ?_, ?_, e5, e6, e7, e8, e8b, e9⟩
    · show s.nRecv = (p1 ++ p2).length + (s.nDone + 1)
      simp at e3 ⊢; omega
    · show s.nDone + 1 = (s.pendDec + 1) + s.nDec
      omega
  | finishFail c p1 p2 h hr =>
    rw [h] at e3
    refine ⟨e1, e2, ?_, ?_, e5, e6, e7, e8, e8b, e9⟩
    · show s.nRecv = (p1 ++ p2).length + (s.nDone + 1)
      simp at e3 ⊢; omega
    · show s.nDone + 1 = (s.pendDec + 1) + s.nDec
      omega
  | dec h =>
    refine ⟨e1, e2, e3, ?_, ?_, e6, e7, e8, e8b, e9⟩
    · show s.nDone = (s.pendDec - 1) + (s.nDec + 1)
      omega
    · show (s.bits + 65535) % 65536 = (s.nDisp - (s.nDec + 1)) % 65536
      rw [e5, Nat.mod_add_mod]
      have hm : 1 ≤ s.nDisp - s.nDec := by omega
      have h2 : s.nDisp - s.nDec + 65535 = (s.nDisp - (s.nDec + 1)) + 65536 := by
        omega
      rw [h2, Nat.add_mod_right]

theorem reach_crawlInv {g : List DrvPath → Except Unit (List DrvPath × List Attr)}
    {r : Attr → Option DrvPath} {root : DrvPath} {s : Sys}
    (h : Reach g r (init root) s) : CrawlInv s := by
  induction h with
  | refl => exact crawlInv_init root
  | tail _ hst ih => exact crawlInv_step hst ih

theorem toI16_eq_of_lt {n : Nat} (h : n < 32768) : toI16 n = (n : Int) := by
  unfold toI16
  rw [Nat.mod_eq_of_lt (by omega)]
  simp [h]

theorem CrawlInv.bits_outstanding {s : Sys} (hi : CrawlInv s) :
    s.bits = outstanding s % 65536 := by
  have h1 := hi.nDisp_split
  have h2 := hi.bits_eq
  have h3 : s.nDisp - s.nDec = outstanding s := by
    unfold outstanding
    omega
  rw [h2, h3]

theorem crawlEnded_outstanding {s : Sys} (he : crawlEnded s) :
    outstanding s = 0 := by
  obtain ⟨hpc, hchan, hproc, hpend⟩ := he
  unfold outstanding
  rcases hpc with hpc | hpc <;> simp [hchan, hproc, hpend, hpc, pendSend]

/-- C6 counterexample: with available parallelism 1, the spawn range
`(1..num_cpus::get())` is empty, so zero resolution workers are spawned,
not `max 1 (1 - 1) = 1` as the claim states. -/
theorem c6_counterexample : (inst_hdl_ids 1).length ≠ max 1 (1 - 1) := by
  decide

/-- C6 (amended): for every available-parallelism value `N`, the crawl
spawns exactly `N - 1` resolution workers (the size of the Rust range
`1..N`); in particular zero resolution workers exist when `N = 1`. -/
theorem c6_theorem : ∀ ncpus : Nat, (inst_hdl_ids ncpus).length = ncpus - 1 := by
  intro ncpus
  simp [inst_hdl_ids]

/-- C9: construction of a `DrvPath` from a raw string succeeds exactly when
the string has the `/nix/store/` root (in Rust path-component semantics)
and the `drv` extension; on success the stored value is the input string
itself (construction either fails producing no value, or returns the
input string), and any input lacking either property fails fast. -/
theorem c9_theorem : ∀ s : String,
    ((DrvPath.new s).isSome = true ↔
      (startsWithNixStore s = true ∧ pathExtension s = some "drv")) ∧
    (DrvPath.new s = none ∨ DrvPath.new s = some s) := by
  intro s
  constructor
  · unfold DrvPath.new
    by_cases h1 : startsWithNixStore s
    · simp only [h1, if_true]
      cases h2 : pathExtension s with
      | none => simp
      | some e =>
        by_cases h3 : e = "drv"
        · subst h3
          simp
        · simp [h3]
    · simp [h1]
  · unfold DrvPath.new
    by_cases h1 : startsWithNixStore s
    · simp only [h1, if_true]
      cases h2 : pathExtension s with
      | none => exact Or.inl rfl
      | some e =>
        by_cases h3 : e = "drv"
        · subst h3
          simp
        · simp [h3]
    · simp [h1]

/-- C2: `Seen::take_max` never returns an element already in the visited
set, and every element it returns is in the visited set it hands back (so
it cannot be returned again); consequently, in every reachable state of
the crawl the concatenation of all batches ever produced for the
batch-query facility has no duplicate `DrvPath`, i.e. each derivation path
is contained in at most one batch, at most once. -/
theorem c2_theorem :
    (∀ (seen : Seen DrvPath) (queue : List DrvPath) (n : Nat) (x : DrvPath),
        x ∈ (seen.take_max queue n).1 → seen.contains x = false) ∧
    (∀ (seen : Seen DrvPath) (queue : List DrvPath) (n : Nat) (x : DrvPath),
        x ∈ (seen.take_max queue n).1 →
          ((seen.take_max queue n).2.1).contains x = true) ∧
    (∀ (g : List DrvPath → Except Unit (List DrvPath × List Attr))
        (r : Attr → Option DrvPath) (root : DrvPath) (s : Sys),
        Reach g r (init root) s → s.batches.flatten.Nodup) :=
  ⟨fun seen queue n x => Seen.take_max_not_seen queue seen n x,
   fun seen queue n x => Seen.take_max_mem_new_seen queue seen n x,
   fun _ _ _ _ h => (reach_crawlInv h).flat_nodup⟩

/-- C4: `Seen::take_max (queue, n)` returns at most `n` elements, and in
every reachable state of the crawl each batch produced for the batch-query
facility (always via `take_max` with `n = 30`) has at most 30 elements. -/
theorem c4_theorem :
    (∀ (seen : Seen DrvPath) (queue : List DrvPath) (n : Nat),
        ((seen.take_max queue n).1).length ≤ n) ∧
    (∀ (g : List DrvPath → Except Unit (List DrvPath × List Attr))
        (r : Attr → Option DrvPath) (root : DrvPath) (s : Sys),
        Reach g r (init root) s → ∀ b ∈ s.batches, b.length ≤ 30) :=
  ⟨fun seen queue n => Seen.take_max_length_le queue seen n,
   fun _ _ _ _ h => (reach_crawlInv h).batch_len⟩

theorem reach_rootV_sink :
    Reach g0 r0 (init rootV)
      { queue := [], seen := ⟨[rootV]⟩, chan := [], proc := [], pendDec := 0,
        bits := 0, pc := .pushInputs [] [], sink := [[rootV]],
        batches := [[rootV]], faillog := [], sleeps := 0, nDisp := 0,
        nSent := 0, nRecv := 0, nDone := 0, nDec := 0 } := by
  refine Relation.ReflTransGen.head (Step.readLen _ rfl) ?_
  refine Relation.ReflTransGen.head (Step.takeBatch _ 1 rfl (by decide)) ?_
  refine Relation.ReflTransGen.head (Step.queryOk _ [rootV] [] [] rfl rfl) ?_
  refine Relation.ReflTransGen.head (Step.deliver _ [rootV] [] [] rfl) ?_
  exact Relation.ReflTransGen.refl

theorem reach_rootV_exit :
    Reach g0 r0 (init rootV)
      { queue := [], seen := ⟨[rootV]⟩, chan := [], proc := [], pendDec := 0,
        bits := 0, pc := .exitedOk, sink := [[rootV]],
        batches := [[rootV]], faillog := [], sleeps := 0, nDisp := 0,
        nSent := 0, nRecv := 0, nDone := 0, nDec := 0 } := by
  refine Relation.ReflTransGen.trans reach_rootV_sink ?_
  refine Relation.ReflTransGen.head (Step.pushInputs _ [] [] rfl) ?_
  refine Relation.ReflTransGen.head (Step.dispatchDone _ rfl) ?_
  refine Relation.ReflTransGen.head (Step.readLen _ rfl) ?_
  refine Relation.ReflTransGen.head (Step.readInflight _ rfl) ?_
  refine Relation.ReflTransGen.head (Step.exitOk _ 0 rfl (by norm_num)) ?_
  exact Relation.ReflTransGen.refl

/-- C5: in every reachable state the output produced by the sink writer
from the batches emitted so far contains exactly the textual forms of the
emitted `DrvPath`s satisfying `has_version`, one line per path, with no
omissions and no duplicates (the no-duplicates part uses that the emitted
batches are pairwise disjoint). -/
theorem c5_theorem :
    ∀ (g : List DrvPath → Except Unit (List DrvPath × List Attr))
      (r : Attr → Option DrvPath) (root : DrvPath) (s : Sys),
      Reach g r (init root) s →
      (∀ l, l ∈ output_runner s.sink ↔
        ∃ d, d ∈ s.sink.flatten ∧ has_version d = true ∧ l = d) ∧
      (output_runner s.sink).Nodup := by
  intro g r root s h
  have hi := reach_crawlInv h
  constructor
  · intro l
    unfold output_runner
    rw [List.mem_filter]
    constructor
    · rintro ⟨h1, h2⟩
      exact ⟨l, h1, h2, rfl⟩
    · rintro ⟨d, h1, h2, rfl⟩
      exact ⟨h1, h2⟩
  · obtain ⟨t, ht⟩ := hi.sink_init
    have hsub : s.sink.flatten.Sublist s.batches.flatten := by
      rw [ht, List.flatten_append]
      exact List.sublist_append_left _ _
    exact (hi.flat_nodup.sublist hsub).filter _

/-- C5 witness: the concrete crawl of the root `x-1` (which satisfies
`has_version`) puts exactly that path in the output, with no duplicates. -/
theorem c5_witness :
    (rootV ∈ output_runner [[rootV]]) ∧ (output_runner [[rootV]]).Nodup := by
  have h := c5_theorem g0 r0 rootV _ reach_rootV_sink
  constructor
  · exact (h.1 rootV).2 ⟨rootV, by decide, by decide, rfl⟩
  · exact h.2

/-- C8: when `nix_instantiate` fails for a target, `instantiate_runner`
appends the target to the warning log, pushes nothing onto the frontier,
leaves the expansion thread's control state untouched (so the failure is
not propagated as a crawl error), leaves the counter bits unchanged at
that step while registering exactly one pending decrement; and at crawl
end every completed resolution attempt has been decremented exactly once. -/
theorem c8_theorem :
    (∀ (g : List DrvPath → Except Unit (List DrvPath × List Attr))
       (r : Attr → Option DrvPath) (s : Sys) (c : Attr) (p1 p2 : List Attr),
       s.proc = p1 ++ c :: p2 → r c = none →
       ∃ s', Step g r s s' ∧ s'.queue = s.queue ∧
         s'.faillog = s.faillog ++ [c] ∧ s'.bits = s.bits ∧
         s'.pendDec = s.pendDec + 1 ∧ s'.pc = s.pc ∧ s'.sink = s.sink) ∧
    (∀ (g : List DrvPath → Except Unit (List DrvPath × List Attr))
       (r : Attr → Option DrvPath) (root : DrvPath) (s : Sys),
       Reach g r (init root) s → crawlEnded s → s.nDec = s.nDone) := by
  constructor
  · intro g r s c p1 p2 h hr
    exact ⟨_, Step.finishFail s c p1 p2 h hr, rfl, rfl, rfl, rfl, rfl, rfl⟩
  · intro g r root s h he
    have h4 := (reach_crawlInv h).done_eq
    have hp := he.2.2.2
    omega

/-- C8 witness: a concrete failing resolution step from a state with one
target in flight, and the end-state accounting at the initial state. -/
theorem c8_witness :
    (∃ s', Step g0 r0 ({ init root0 with proc := ["a"] } : Sys) s' ∧
      s'.queue = ({ init root0 with proc := ["a"] } : Sys).queue ∧
      s'.faillog = ({ init root0 with proc := ["a"] } : Sys).faillog ++ ["a"] ∧
      s'.bits = ({ init root0 with proc := ["a"] } : Sys).bits ∧
      s'.pendDec = ({ init root0 with proc := ["a"] } : Sys).pendDec + 1 ∧
      s'.pc = ({ init root0 with proc := ["a"] } : Sys).pc ∧
      s'.sink = ({ init root0 with proc := ["a"] } : Sys).sink) ∧
    (crawlEnded (init root0) → (init root0).nDec = (init root0).nDone) :=
  ⟨c8_theorem.1 g0 r0 { init root0 with proc := ["a"] } "a" [] [] rfl rfl,
   c8_theorem.2 g0 r0 root0 (init root0) Relation.ReflTransGen.refl⟩

/-- C1 (amended): the expansion loop reaches its normal exit only directly
from a state where it has, in the same iteration, observed frontier length
0 and then loaded an inflight value ≤ 0 (the two reads are consecutive but
separate, and the loop may exit on the first such joint observation,
without any backoff re-check); when the frontier is observed empty while
the loaded inflight value is > 0 the loop sleeps one backoff interval and
re-loops; the only other exit is a `show_derivation` failure. -/
theorem c1_theorem :
    ∀ (g : List DrvPath → Except Unit (List DrvPath × List Attr))
      (r : Attr → Option DrvPath) (s s' : Sys), Step g r s s' →
      (s'.pc = .exitedOk → s.pc = .exitedOk ∨
        ∃ v, s.pc = .check v ∧ v ≤ 0) ∧
      (s'.pc = .exitedErr → s.pc = .exitedErr ∨
        ∃ drvs e, s.pc = .query drvs ∧ show_derivation g drvs = .error e) ∧
      (∀ v, s'.pc = .check v → s.pc = .check v ∨
        (s.pc = .branch 0 ∧ v = toI16 s.bits)) ∧
      (∀ v, s.pc = .check v → 0 < v →
        s'.pc = .check v ∨ (s'.pc = .top ∧ s'.sleeps = s.sleeps + 1)) := by
  intro g r s s' hst
  cases hst with
  | readLen h =>
    refine ⟨fun hx => ExpandPC.noConfusion hx, fun hx => ExpandPC.noConfusion hx,
      fun v hx => ExpandPC.noConfusion hx, fun v hv hpos => ?_⟩
    rw [h] at hv
    exact ExpandPC.noConfusion hv
  | takeBatch len h hlen =>
    refine ⟨fun hx => ExpandPC.noConfusion hx, fun hx => ExpandPC.noConfusion hx,
      fun v hx => ExpandPC.noConfusion hx, fun v hv hpos => ?_⟩
    rw [h] at hv
    exact ExpandPC.noConfusion hv
  | queryOk drvs inputs cons h hg =>
    refine ⟨fun hx => ExpandPC.noConfusion hx, fun hx => ExpandPC.noConfusion hx,
      fun v hx => ExpandPC.noConfusion hx, fun v hv hpos => ?_⟩
    rw [h] at hv
    exact ExpandPC.noConfusion hv
  | queryErr drvs e h hg =>
    refine ⟨fun hx => ExpandPC.noConfusion hx, fun _ => Or.inr ⟨drvs, e, h, hg⟩,
      fun v hx => ExpandPC.noConfusion hx, fun v hv hpos => ?_⟩
    rw [h] at hv
    exact ExpandPC.noConfusion hv
  | deliver drvs inputs cons h =>
    refine ⟨fun hx => ExpandPC.noConfusion hx, fun hx => ExpandPC.noConfusion hx,
      fun v hx => ExpandPC.noConfusion hx, fun v hv hpos => ?_⟩
    rw [h] at hv
    exact ExpandPC.noConfusion hv
  | pushInputs inputs cons h =>
    refine ⟨fun hx => ExpandPC.noConfusion hx, fun hx => ExpandPC.noConfusion hx,
      fun v hx => ExpandPC.noConfusion hx, fun v hv hpos => ?_⟩
    rw [h] at hv
    exact ExpandPC.noConfusion hv
  | inc c cons h =>
    refine ⟨fun hx => ExpandPC.noConfusion hx, fun hx => ExpandPC.noConfusion hx,
      fun v hx => ExpandPC.noConfusion hx, fun v hv hpos => ?_⟩
    rw [h] at hv
    exact ExpandPC.noConfusion hv
  | send c cons h =>
    refine ⟨fun hx => ExpandPC.noConfusion hx, fun hx => ExpandPC.noConfusion hx,
      fun v hx => ExpandPC.noConfusion hx, fun v hv hpos => ?_⟩
    rw [h] at hv
    exact ExpandPC.noConfusion hv
  | dispatchDone h =>
    refine ⟨fun hx => ExpandPC.noConfusion hx, fun hx => ExpandPC.noConfusion hx,
      fun v hx => ExpandPC.noConfusion hx, fun v hv hpos => ?_⟩
    rw [h] at hv
    exact ExpandPC.noConfusion hv
  | readInflight h =>
    refine ⟨fun hx => ExpandPC.noConfusion hx, fun hx => ExpandPC.noConfusion hx,
      fun v hx => ?_, fun v hv hpos => ?_⟩
    · refine Or.inr ⟨h, ?_⟩
      injection hx with he
      exact he.symm
    · rw [h] at hv
      exact ExpandPC.noConfusion hv
  | exitOk v h hv =>
    refine ⟨fun _ => Or.inr ⟨v, h, hv⟩, fun hx => ExpandPC.noConfusion hx,
      fun v' hx => ExpandPC.noConfusion hx, fun v' hv' hpos => ?_⟩
    rw [h] at hv'
    injection hv' with he
    omega
  | sleep v h hv =>
    refine ⟨fun hx => ExpandPC.noConfusion hx, fun hx => ExpandPC.noConfusion hx,
      fun v' hx => ExpandPC.noConfusion hx, fun v' hv' hpos => ?_⟩
    exact Or.inr ⟨rfl, rfl⟩
  | recv c rest h =>
    exact ⟨fun hx => Or.inl hx, fun hx => Or.inl hx, fun v hx => Or.inl hx,
      fun v hv hpos => Or.inl hv⟩
  | finishOk c d p1 p2 h hr =>
    exact ⟨fun hx => Or.inl hx, fun hx => Or.inl hx, fun v hx => Or.inl hx,
      fun v hv hpos => Or.inl hv⟩
  | finishFail c p1 p2 h hr =>
    exact ⟨fun hx => Or.inl hx, fun hx => Or.inl hx, fun v hx => Or.inl hx,
      fun v hv hpos => Or.inl hv⟩
  | dec h =>
    exact ⟨fun hx => Or.inl hx, fun hx => Or.inl hx, fun v hx => Or.inl hx,
      fun v hv hpos => Or.inl hv⟩

/-- C1 counterexample: the claim that the loop re-checks its exit condition
after a backoff delay before actually terminating is false: with an oracle
reporting no dependencies and no constituents, the crawl of a single root
reaches the normal exit with zero backoff sleeps ever taken. -/
theorem c1_counterexample :
    ¬ (∀ (g : List DrvPath → Except Unit (List DrvPath × List Attr))
         (r : Attr → Option DrvPath) (root : DrvPath) (s : Sys),
         Reach g r (init root) s → s.pc = .exitedOk → 1 ≤ s.sleeps) := by
  intro hclaim
  have h := hclaim g0 r0 rootV _ reach_rootV_exit rfl
  exact Nat.not_succ_le_zero 0 h

/-- C1 witness: the exit characterization applied to a concrete `break`
step from an observed inflight value of 0. -/
theorem c1_witness :
    ({ init rootV with pc := ExpandPC.check 0 } : Sys).pc = ExpandPC.exitedOk ∨
    ∃ v, ({ init rootV with pc := ExpandPC.check 0 } : Sys).pc =
        ExpandPC.check v ∧ v ≤ 0 :=
  (c1_theorem g0 r0 { init rootV with pc := ExpandPC.check 0 } _
    (Step.exitOk { init rootV with pc := ExpandPC.check 0 } 0 rfl
      (by norm_num))).1 rfl

theorem reach_dispatch_chain
    (g : List DrvPath → Except Unit (List DrvPath × List Attr))
    (r : Attr → Option DrvPath) :
    ∀ (cs : List Attr) (s : Sys), s.pc = .dispatch cs → s.bits < 65536 →
    Reach g r s { s with
                  pc := .dispatch [],
                  chan := s.chan ++ cs,
                  bits := (s.bits + cs.length) % 65536,
                  nDisp := s.nDisp + cs.length,
                  nSent := s.nSent + cs.length } := by
  intro cs
  induction cs with
  | nil =>
    intro s h hb
    have hgen : ∀ x : Sys, x = s → Reach g r s x := by
      intro x hx
      rw [hx]
      exact Relation.ReflTransGen.refl
    apply hgen
    cases s
    simp_all [Nat.mod_eq_of_lt]
  | cons c cs ih =>
    intro s h hb
    refine Relation.ReflTransGen.head (Step.inc s c cs h) ?_
    refine Relation.ReflTransGen.head (Step.send _ c cs rfl) ?_
    have h2 := ih { s with
        pc := ExpandPC.dispatch cs,
        chan := s.chan ++ [c],
        bits := (s.bits + 1) % 65536,
        nDisp := s.nDisp + 1,
        nSent := s.nSent + 1 } rfl (Nat.mod_lt _ (by norm_num))
    have hEq : ({ s with
        pc := ExpandPC.dispatch [],
        chan := (s.chan ++ [c]) ++ cs,
        bits := ((s.bits + 1) % 65536 + cs.length) % 65536,
        nDisp := (s.nDisp + 1) + cs.length,
        nSent := (s.nSent + 1) + cs.length } : Sys)
        = { s with
            pc := ExpandPC.dispatch [],
            chan := s.chan ++ (c :: cs),
            bits := (s.bits + (c :: cs).length) % 65536,
            nDisp := s.nDisp + (c :: cs).length,
            nSent := s.nSent + (c :: cs).length } := by
      cases s
      simp only [Sys.mk.injEq, List.append_assoc, List.singleton_append,
        List.length_cons, Nat.mod_add_mod, and_true, true_and]
      omega
    rw [hEq] at h2
    exact h2

theorem reach_dispatch_chain_count
    (g : List DrvPath → Except Unit (List DrvPath × List Attr))
    (r : Attr → Option DrvPath) (cs : List Attr) (n : Nat) (s : Sys)
    (h : s.pc = .dispatch cs) (hb : s.bits < 65536) (hn : cs.length = n) :
    Reach g r s { s with
                  pc := .dispatch [],
                  chan := s.chan ++ cs,
                  bits := (s.bits + n) % 65536,
                  nDisp := s.nDisp + n,
                  nSent := s.nSent + n } := by
  subst hn
  exact reach_dispatch_chain g r cs s h hb

theorem reach_big_bad :
    Reach gBig r0 (init root0)
      { queue := [], seen := ⟨[root0]⟩, chan := List.replicate 32768 "c",
        proc := [], pendDec := 0, bits := 32768, pc := .exitedOk,
        sink := [[root0]], batches := [[root0]], faillog := [], sleeps := 0,
        nDisp := 32768, nSent := 32768, nRecv := 0, nDone := 0,
        nDec := 0 } := by
  have h1 : Step gBig r0 (init root0)
      { queue := [root0], seen := ⟨[]⟩, chan := [], proc := [], pendDec := 0,
        bits := 0, pc := .branch 1, sink := [], batches := [], faillog := [],
        sleeps := 0, nDisp := 0, nSent := 0, nRecv := 0, nDone := 0,
        nDec := 0 } :=
    Step.readLen _ rfl
  have h2 : Step gBig r0
      { queue := [root0], seen := ⟨[]⟩, chan := [], proc := [], pendDec := 0,
        bits := 0, pc := .branch 1, sink := [], batches := [], faillog := [],
        sleeps := 0, nDisp := 0, nSent := 0, nRecv := 0, nDone := 0,
        nDec := 0 }
      { queue := [], seen := ⟨[root0]⟩, chan := [], proc := [], pendDec := 0,
        bits := 0, pc := .query [root0], sink := [], batches := [[root0]],
        faillog := [], sleeps := 0, nDisp := 0, nSent := 0, nRecv := 0,
        nDone := 0, nDec := 0 } :=
    Step.takeBatch _ 1 rfl (by decide)
  have h3 : Step gBig r0
      { queue := [], seen := ⟨[root0]⟩, chan := [], proc := [], pendDec := 0,
        bits := 0, pc := .query [root0], sink := [], batches := [[root0]],
        faillog := [], sleeps := 0, nDisp := 0, nSent := 0, nRecv := 0,
        nDone := 0, nDec := 0 }
      { queue := [], seen := ⟨[root0]⟩, chan := [], proc := [], pendDec := 0,
        bits := 0, pc := .deliver [root0] [] (List.replicate 32768 "c"),
        sink := [], batches := [[root0]], faillog := [], sleeps := 0,
        nDisp := 0, nSent := 0, nRecv := 0, nDone := 0, nDec := 0 } :=
    Step.queryOk _ [root0] [] (List.replicate 32768 "c") rfl rfl
  have h4 : Step gBig r0
      { queue := [], seen := ⟨[root0]⟩, chan := [], proc := [], pendDec := 0,
        bits := 0, pc := .deliver [root0] [] (List.replicate 32768 "c"),
        sink := [], batches := [[root0]], faillog := [], sleeps := 0,
        nDisp := 0, nSent := 0, nRecv := 0, nDone := 0, nDec := 0 }
      { queue := [], seen := ⟨[root0]⟩, chan := [], proc := [], pendDec := 0,
        bits := 0, pc := .pushInputs [] (List.replicate 32768 "c"),
        sink := [[root0]], batches := [[root0]], faillog := [], sleeps := 0,
        nDisp := 0, nSent := 0, nRecv := 0, nDone := 0, nDec := 0 } :=
    Step.deliver _ [root0] [] (List.replicate 32768 "c") rfl
  have h5 : Step gBig r0
      { queue := [], seen := ⟨[root0]⟩, chan := [], proc := [], pendDec := 0,
        bits := 0, pc := .pushInputs [] (List.replicate 32768 "c"),
        sink := [[root0]], batches := [[root0]], faillog := [], sleeps := 0,
        nDisp := 0, nSent := 0, nRecv := 0, nDone := 0, nDec := 0 }
      { queue := [], seen := ⟨[root0]⟩, chan := [], proc := [], pendDec := 0,
        bits := 0, pc := .dispatch (List.replicate 32768 "c"),
        sink := [[root0]], batches := [[root0]], faillog := [], sleeps := 0,
        nDisp := 0, nSent := 0, nRecv := 0, nDone := 0, nDec := 0 } :=
    Step.pushInputs _ [] (List.replicate 32768 "c") rfl
  have h6 := reach_dispatch_chain_count gBig r0 (List.replicate 32768 "c")
      32768
      { queue := [], seen := ⟨[root0]⟩, chan := [], proc := [], pendDec := 0,
        bits := 0, pc := .dispatch (List.replicate 32768 "c"),
        sink := [[root0]], batches := [[root0]], faillog := [], sleeps := 0,
        nDisp := 0, nSent := 0, nRecv := 0, nDone := 0, nDec := 0 }
      rfl (by norm_num) (List.length_replicate 32768 "c")
  have h7 : Step gBig r0
      { queue := [], seen := ⟨[root0]⟩, chan := List.replicate 32768 "c",
        proc := [], pendDec := 0, bits := 32768, pc := .dispatch [],
        sink := [[root0]], batches := [[root0]], faillog := [], sleeps := 0,
        nDisp := 32768, nSent := 32768, nRecv := 0, nDone := 0, nDec := 0 }
      { queue := [], seen := ⟨[root0]⟩, chan := List.replicate 32768 "c",
        proc := [], pendDec := 0, bits := 32768, pc := .top,
        sink := [[root0]], batches := [[root0]], faillog := [], sleeps := 0,
        nDisp := 32768, nSent := 32768, nRecv := 0, nDone := 0, nDec := 0 } :=
    Step.dispatchDone _ rfl
  have h8 : Step gBig r0
      { queue := [], seen := ⟨[root0]⟩, chan := List.replicate 32768 "c",
        proc := [], pendDec := 0, bits := 32768, pc := .top,
        sink := [[root0]], batches := [[root0]], faillog := [], sleeps := 0,
        nDisp := 32768, nSent := 32768, nRecv := 0, nDone := 0, nDec := 0 }
      { queue := [], seen := ⟨[root0]⟩, chan := List.replicate 32768 "c",
        proc := [], pendDec := 0, bits := 32768, pc := .branch 0,
        sink := [[root0]], batches := [[root0]], faillog := [], sleeps := 0,
        nDisp := 32768, nSent := 32768, nRecv := 0, nDone := 0, nDec := 0 } :=
    Step.readLen _ rfl
  have h9 : Step gBig r0
      { queue := [], seen := ⟨[root0]⟩, chan := List.replicate 32768 "c",
        proc := [], pendDec := 0, bits := 32768, pc := .branch 0,
        sink := [[root0]], batches := [[root0]], faillog := [], sleeps := 0,
        nDisp := 32768, nSent := 32768, nRecv := 0, nDone := 0, nDec := 0 }
      { queue := [], seen := ⟨[root0]⟩, chan := List.replicate 32768 "c",
        proc := [], pendDec := 0, bits := 32768, pc := .check (-32768),
        sink := [[root0]], batches := [[root0]], faillog := [], sleeps := 0,
        nDisp := 32768, nSent := 32768, nRecv := 0, nDone := 0, nDec := 0 } :=
    Step.readInflight _ rfl
  have h10 : Step gBig r0
      { queue := [], seen := ⟨[root0]⟩, chan := List.replicate 32768 "c",
        proc := [], pendDec := 0, bits := 32768, pc := .check (-32768),
        sink := [[root0]], batches := [[root0]], faillog := [], sleeps := 0,
        nDisp := 32768, nSent := 32768, nRecv := 0, nDone := 0, nDec := 0 }
      { queue := [], seen := ⟨[root0]⟩, chan := List.replicate 32768 "c",
        proc := [], pendDec := 0, bits := 32768, pc := .exitedOk,
        sink := [[root0]], batches := [[root0]], faillog := [], sleeps := 0,
        nDisp := 32768, nSent := 32768, nRecv := 0, nDone := 0, nDec := 0 } :=
    Step.exitOk _ (-32768) rfl (by norm_num)
  exact Relation.ReflTransGen.head h1 (Relation.ReflTransGen.head h2
    (Relation.ReflTransGen.head h3 (Relation.ReflTransGen.head h4
      (Relation.ReflTransGen.head h5 (Relation.ReflTransGen.trans h6
        (Relation.ReflTransGen.head h7 (Relation.ReflTransGen.head h8
          (Relation.ReflTransGen.head h9
            (Relation.ReflTransGen.single h10)))))))))

/-- C3 (amended): inflight accounting of the crawl.  In every reachable
state the increment count equals the send count plus the pending
increment-before-send (each increment happens exactly once per dispatched
target, before submitting it to the channel), each completed attempt is
matched by exactly one pending-or-performed decrement, and the stored
16-bit pattern is the wrapped difference of increments and decrements.
Provided the number of outstanding resolution targets never exceeds 32767
(no 16-bit overflow at the state), the loaded counter value equals the
outstanding count and is ≥ 0; without that bound the value can go
negative.  At crawl end the value is exactly 0. -/
theorem c3_theorem :
    ∀ (g : List DrvPath → Except Unit (List DrvPath × List Attr))
      (r : Attr → Option DrvPath) (root : DrvPath) (s : Sys),
      Reach g r (init root) s →
      (s.nDisp = s.nSent + pendSend s.pc ∧ s.nDone = s.pendDec + s.nDec ∧
        s.bits = (s.nDisp - s.nDec) % 65536) ∧
      (outstanding s ≤ 32767 →
        inflightVal s = (outstanding s : Int) ∧ 0 ≤ inflightVal s) ∧
      (crawlEnded s → inflightVal s = 0) := by
  intro g r root s h
  have hi := reach_crawlInv h
  refine ⟨⟨hi.disp_eq, hi.done_eq, hi.bits_eq⟩, ?_, ?_⟩
  · intro hle
    have hb := hi.bits_outstanding
    have h1 : s.bits = outstanding s := by
      rw [hb]
      exact Nat.mod_eq_of_lt (by omega)
    unfold inflightVal
    rw [h1, toI16_eq_of_lt (by omega)]
    exact ⟨rfl, Int.ofNat_nonneg _⟩
  · intro he
    have h0 := crawlEnded_outstanding he
    have hb := hi.bits_outstanding
    rw [h0] at hb
    unfold inflightVal
    rw [hb]
    norm_num [toI16]

/-- C3 counterexample: the counter is not always ≥ 0.  With a root batch
reporting 32768 constituents, after the expansion thread has dispatched
all of them (and no completion has happened yet) the crawl reaches a
state whose loaded `INFLIGHT` value is -32768 < 0. -/
theorem c3_counterexample :
    ¬ (∀ (g : List DrvPath → Except Unit (List DrvPath × List Attr))
         (r : Attr → Option DrvPath) (root : DrvPath) (s : Sys),
         Reach g r (init root) s → 0 ≤ inflightVal s) := by
  intro hclaim
  have h := hclaim gBig r0 root0 _ reach_big_bad
  have hneg : ¬ (0 : Int) ≤ toI16 32768 := by norm_num [toI16]
  exact absurd h hneg

/-- C3 witness: the accounting applied to the completed concrete crawl of
a single root with no constituents: the crawl has ended and the counter
value is exactly 0. -/
theorem c3_witness :
    inflightVal
      { queue := [], seen := ⟨[rootV]⟩, chan := [], proc := [], pendDec := 0,
        bits := 0, pc := .exitedOk, sink := [[rootV]],
        batches := [[rootV]], faillog := [], sleeps := 0, nDisp := 0,
        nSent := 0, nRecv := 0, nDone := 0, nDec := 0 } = 0 :=
  (c3_theorem g0 r0 rootV _ reach_rootV_exit).2.2 ⟨Or.inl rfl, rfl, rfl, rfl⟩

/-- C10: the inflight counter is a 16-bit signed integer; with 32768
resolution targets dispatched before any completion, the stored pattern
wraps so that the loaded value is -32768, the `inflight <= 0` termination
test passes, and the crawl reaches the normal exit while 32768 dispatched
resolution targets are still outstanding. -/
theorem c10_theorem :
    ∃ s : Sys, Reach gBig r0 (init root0) s ∧ s.pc = .exitedOk ∧
      outstanding s = 32768 ∧ inflightVal s = -32768 := by
  have key : ∀ L : List Attr, L.length = 32768 →
      Reach gBig r0 (init root0)
        { queue := [], seen := ⟨[root0]⟩, chan := L,
          proc := [], pendDec := 0, bits := 32768, pc := .exitedOk,
          sink := [[root0]], batches := [[root0]], faillog := [],
          sleeps := 0, nDisp := 32768, nSent := 32768, nRecv := 0,
          nDone := 0, nDec := 0 } →
      ∃ s : Sys, Reach gBig r0 (init root0) s ∧ s.pc = .exitedOk ∧
        outstanding s = 32768 ∧ inflightVal s = -32768 := by
    intro L hlen hreach
    refine ⟨_, hreach, rfl, ?_, ?_⟩
    · show L.length + List.length ([] : List Attr) + 0 +
          pendSend ExpandPC.exitedOk = 32768
      rw [hlen]
      rfl
    · show toI16 32768 = -32768
      norm_num [toI16]
  exact key (List.replicate 32768 "c") (List.length_replicate 32768 "c")
    reach_big_bad

theorem reach_c7_mid :
    Reach g1 r0 (init root0)
      { queue := [root0], seen := ⟨[root0]⟩, chan := [], proc := [],
        pendDec := 0, bits := 0, pc := .branch 1, sink := [[root0]],
        batches := [[root0]], faillog := [], sleeps := 0, nDisp := 0,
        nSent := 0, nRecv := 0, nDone := 0, nDec := 0 } := by
  refine Relation.ReflTransGen.head (Step.readLen _ rfl) ?_
  refine Relation.ReflTransGen.head (Step.takeBatch _ 1 rfl (by decide)) ?_
  refine Relation.ReflTransGen.head
    (Step.queryOk _ [root0] [root0] [] rfl rfl) ?_
  refine Relation.ReflTransGen.head (Step.deliver _ [root0] [root0] [] rfl) ?_
  refine Relation.ReflTransGen.head (Step.pushInputs _ [root0] [] rfl) ?_
  refine Relation.ReflTransGen.head (Step.dispatchDone _ rfl) ?_
  refine Relation.ReflTransGen.head (Step.readLen _ rfl) ?_
  exact Relation.ReflTransGen.refl

/-- C7 (amended): `show_derivation` on an empty batch returns the empty
result without invoking any external process, and an expansion-loop
iteration whose dequeued batch is empty after deduplication continues the
loop without discovering anything and without changing the visited set or
the inflight counter; however it does change the frontier — `take_max`
has drained all the (already-visited) queued items, so the frontier is
empty afterwards — and it forwards an empty batch to the sink
(contributing no output lines). -/
theorem c7_theorem :
    ∀ (g : List DrvPath → Except Unit (List DrvPath × List Attr))
      (r : Attr → Option DrvPath) (s : Sys) (len : Nat),
      s.pc = .branch len → 0 < len →
      (s.seen.take_max s.queue 30).1 = [] →
      show_derivation g ([] : List DrvPath) = .ok ([], []) ∧
      show_derivation_invoked ([] : List DrvPath) = false ∧
      Reach g r s { s with
                    pc := .top,
                    queue := [],
                    batches := s.batches ++ [[]],
                    sink := s.sink ++ [[]] } := by
  intro g r s len h hlen hempty
  refine ⟨rfl, rfl, ?_⟩
  have hseen : (s.seen.take_max s.queue 30).2.1 = s.seen :=
    Seen.take_max_empty_same_seen s.queue s.seen 30 hempty
  have hrest : (s.seen.take_max s.queue 30).2.2 = [] :=
    Seen.take_max_empty_rest s.queue s.seen 30 (by norm_num) hempty
  have h1 : Step g r s { s with
      pc := ExpandPC.query [],
      queue := [],
      batches := s.batches ++ [[]] } := by
    have hc : Step g r s _ := Step.takeBatch s len h hlen
    rw [hempty, hseen, hrest] at hc
    exact hc
  have h2 : Step g r
      ({ s with
         pc := ExpandPC.query [],
         queue := [],
         batches := s.batches ++ [[]] } : Sys)
      { s with
        pc := ExpandPC.deliver [] [] [],
        queue := [],
        batches := s.batches ++ [[]] } :=
    Step.queryOk _ [] [] [] rfl rfl
  have h3 : Step g r
      ({ s with
         pc := ExpandPC.deliver [] [] [],
         queue := [],
         batches := s.batches ++ [[]] } : Sys)
      { s with
        pc := ExpandPC.pushInputs [] [],
        queue := [],
        batches := s.batches ++ [[]],
        sink := s.sink ++ [[]] } :=
    Step.deliver _ [] [] [] rfl
  have h4 : Step g r
      ({ s with
         pc := ExpandPC.pushInputs [] [],
         queue := [],
         batches := s.batches ++ [[]],
         sink := s.sink ++ [[]] } : Sys)
      { s with
        pc := ExpandPC.dispatch [],
        queue := [],
        batches := s.batches ++ [[]],
        sink := s.sink ++ [[]] } :=
    Step.pushInputs _ [] [] rfl
  have h5 : Step g r
      ({ s with
         pc := ExpandPC.dispatch [],
         queue := [],
         batches := s.batches ++ [[]],
         sink := s.sink ++ [[]] } : Sys)
      { s with
        pc := ExpandPC.top,
        queue := [],
        batches := s.batches ++ [[]],
        sink := s.sink ++ [[]] } :=
    Step.dispatchDone _ rfl
  exact Relation.ReflTransGen.head h1 (Relation.ReflTransGen.head h2
    (Relation.ReflTransGen.head h3 (Relation.ReflTransGen.head h4
      (Relation.ReflTransGen.single h5))))

/-- C7 counterexample: the dedup-empty iteration does not leave the
frontier unchanged.  In a concrete reachable crawl state whose frontier
holds exactly one already-visited path, the dequeue step of that
iteration yields the empty batch and empties the frontier (while leaving
the visited set and the counter bits unchanged). -/
theorem c7_counterexample :
    ∃ s s' : Sys, Reach g1 r0 (init root0) s ∧ s.pc = .branch 1 ∧
      (s.seen.take_max s.queue 30).1 = [] ∧ Step g1 r0 s s' ∧
      s'.queue ≠ s.queue ∧ s'.seen = s.seen ∧ s'.bits = s.bits := by
  refine ⟨_, _, reach_c7_mid, rfl, by decide, Step.takeBatch _ 1 rfl
    (by decide), by decide, by decide, rfl⟩

/-- C7 witness: the amended iteration description applied to that same
concrete reachable state. -/
theorem c7_witness :
    show_derivation g1 ([] : List DrvPath) = .ok ([], []) ∧
    show_derivation_invoked ([] : List DrvPath) = false ∧
    Reach g1 r0
      { queue := [root0], seen := ⟨[root0]⟩, chan := [], proc := [],
        pendDec := 0, bits := 0, pc := .branch 1, sink := [[root0]],
        batches := [[root0]], faillog := [], sleeps := 0, nDisp := 0,
        nSent := 0, nRecv := 0, nDone := 0, nDec := 0 }
      { queue := [], seen := ⟨[root0]⟩, chan := [], proc := [],
        pendDec := 0, bits := 0, pc := .top, sink := [[root0]] ++ [[]],
        batches := [[root0]] ++ [[]], faillog := [], sleeps := 0,
        nDisp := 0, nSent := 0, nRecv := 0, nDone := 0, nDec := 0 } :=
  c7_theorem g1 r0
    { queue := [root0], seen := ⟨[root0]⟩, chan := [], proc := [],
      pendDec := 0, bits := 0, pc := .branch 1, sink := [[root0]],
      batches := [[root0]], faillog := [], sleeps := 0, nDisp := 0,
      nSent := 0, nRecv := 0, nDone := 0, nDec := 0 }
    1 rfl (by decide) (by decide)

/-- C2 witness: the dedup facts evaluated on a singleton queue, and the
no-duplicates invariant at a concrete reachable state with a non-empty
batch history. -/
theorem c2_witness :
    ((⟨[]⟩ : Seen DrvPath).contains root0 = false) ∧
    ((((⟨[]⟩ : Seen DrvPath).take_max [root0] 30).2.1).contains root0
      = true) ∧
    (({ queue := [root0], seen := ⟨[root0]⟩, chan := [], proc := [],
        pendDec := 0, bits := 0, pc := .branch 1, sink := [[root0]],
        batches := [[root0]], faillog := [], sleeps := 0, nDisp := 0,
        nSent := 0, nRecv := 0, nDone := 0, nDec := 0 } : Sys)
      ).batches.flatten.Nodup :=
  ⟨c2_theorem.1 ⟨[]⟩ [root0] 30 root0 (by decide),
   c2_theorem.2.1 ⟨[]⟩ [root0] 30 root0 (by decide),
   c2_theorem.2.2 g1 r0 root0 _ reach_c7_mid⟩

/-- C4 witness: the length bound evaluated on a singleton queue, and the
30-bound for a concrete batch of a concrete reachable state. -/
theorem c4_witness :
    (((⟨[]⟩ : Seen DrvPath).take_max [root0] 30).1).length ≤ 30 ∧
    [root0].length ≤ 30 :=
  ⟨c4_theorem.1 ⟨[]⟩ [root0] 30,
   c4_theorem.2 g1 r0 root0 _ reach_c7_mid [root0] (by decide)⟩
